import Mathlib

/-!
# PER exam system: verification of the content-identity, assembly, scoring and
  explanation-cache engine

Shallow embedding of the PER-VISOR-V2 exam system.  Definitions are translated
from the repository's source files:

* `ut_configuration` — the 11-row topic table inserted by the SQL schema
  (deploy.sh, `ut_configuration`).
* `checkIfPassed`, `tallyStep`, `calcTally`, `percentage` — the client scoring
  code (`ExamSystem.checkIfPassed`, `ExamSystem.calculateAndShowResults`).
* `saveAnswer` — `ExamSystem.saveAnswer`.
* `timerRun` — the client countdown (`ExamSystem.startTimer` / `timeUp`).
* `SessionStatus`/`Step` — the statuses admitted by the `user_exams` CHECK
  constraint together with the client pause/finish transitions
  (`pauseExam`, `finishExam`, `timeUp`).
* `checkExplanationExists`, `getOrGenerate`, `generateTrace` — the explanation
  cache flow of `script.js` (`renderExplanationButton`,
  `checkExplanationExists`, `generateExplanation`).
* `deduplicateQuestions` — `script.js` `deduplicateQuestions`.
* `calculateQuestionHash`/`normalizarTexto` — the content-identity code of
  `script.js` (`calculateQuestionHash`, its inner `normalizarTexto`, and the
  fallback branch of `sha256`).
* `assemble` is modelled from the spec, as the exam-generation code is server
  side and not part of the front-end sources.
-/

namespace PER

/-! ## Topic configuration (deploy.sh, table `ut_configuration`) -/

/-- One row of the `ut_configuration` SQL table: topic number, names, per-exam
quota, optional max-error ceiling and critical flag. -/
structure UTRow where
  ut_number : Nat
  ut_name : String
  category_name : String
  questions_per_exam : Nat
  max_errors_allowed : Option Nat
  is_critical : Bool
deriving DecidableEq

/-- The 11 rows inserted by `INSERT INTO ut_configuration ... VALUES` in the
schema script. -/
def ut_configuration : List UTRow :=
  [ ⟨1, "Nomenclatura náutica", "Nomenclatura náutica", 4, none, false⟩,
    ⟨2, "Elementos de amarre y fondeo", "Elementos de amarre y fondeo", 2, none, false⟩,
    ⟨3, "Seguridad", "Seguridad", 4, none, false⟩,
    ⟨4, "Legislación", "Legislación", 2, none, false⟩,
    ⟨5, "Balizamiento", "Balizamiento", 5, some 2, true⟩,
    ⟨6, "Reglamento RIPA", "Reglamento (RIPA)", 10, some 5, true⟩,
    ⟨7, "Maniobra", "Maniobra y navegación", 2, none, false⟩,
    ⟨8, "Emergencias en la mar", "Emergencias en la mar", 3, none, false⟩,
    ⟨9, "Meteorología", "Meteorología", 4, none, false⟩,
    ⟨10, "Teoría de la navegación", "Teoría de la navegación", 5, none, false⟩,
    ⟨11, "Carta de navegación", "Carta de navegación", 4, some 2, true⟩ ]

/-! ## Pass rule (`ExamSystem.checkIfPassed`) -/

/-- The `criticalUTs` object literal of `checkIfPassed`:
`{5: 2, 6: 5, 11: 2}` as (topic, max errors) pairs in enumeration order. -/
def criticalUTs : List (Nat × Nat) := [(5, 2), (6, 5), (11, 2)]

/-- `ExamSystem.checkIfPassed(percentage, utResults)`: fail when the overall
percentage is below 65, otherwise fail when any critical topic's error count
exceeds its ceiling, else pass.  `utErrors t` plays the role of
`utResults[t].errors`. -/
def checkIfPassed (percentage : ℚ) (utErrors : Nat → Nat) : Bool :=
  if percentage < 65 then false
  else criticalUTs.all fun p => decide (utErrors p.1 ≤ p.2)

/-! ## Client scoring (`ExamSystem.calculateAndShowResults`) -/

/-- One entry of `currentExam.questionDetails` with the fields the scoring
loop reads: id, topic number and correct letter. -/
structure ExamQuestion where
  question_id : Nat
  ut_number : Nat
  respuesta_correcta : String
deriving DecidableEq

/-- One `utResults[i]` counter record: `{ correct, total, errors }`. -/
structure UTRes where
  correct : Nat
  total : Nat
  errors : Nat
deriving DecidableEq

/-- The accumulator of the `forEach` loop of `calculateAndShowResults`:
`correctAnswers`, `totalAnswered` and the per-topic counters. -/
structure Tally where
  correctAnswers : Nat
  totalAnswered : Nat
  utResults : Nat → UTRes

/-- `utResults` starts as `{correct: 0, total: 0, errors: 0}` for every topic. -/
def initTally : Tally := ⟨0, 0, fun _ => ⟨0, 0, 0⟩⟩

/-- One iteration of the scoring loop: bump the topic's `total`; if the
question was answered, bump `totalAnswered` and either `correctAnswers` and
the topic's `correct` (answer equals `respuesta_correcta`) or the topic's
`errors`.  An unanswered question touches only the topic's `total`. -/
def tallyStep (answers : Nat → Option String) (t : Tally) (q : ExamQuestion) : Tally :=
  let ut := q.ut_number
  let r := t.utResults ut
  match answers q.question_id with
  | none =>
      { t with utResults := fun u => if u = ut then ⟨r.correct, r.total + 1, r.errors⟩
                                     else t.utResults u }
  | some a =>
      if a = q.respuesta_correcta then
        { correctAnswers := t.correctAnswers + 1,
          totalAnswered := t.totalAnswered + 1,
          utResults := fun u => if u = ut then ⟨r.correct + 1, r.total + 1, r.errors⟩
                                else t.utResults u }
      else
        { correctAnswers := t.correctAnswers,
          totalAnswered := t.totalAnswered + 1,
          utResults := fun u => if u = ut then ⟨r.correct, r.total + 1, r.errors + 1⟩
                                else t.utResults u }

/-- The whole `forEach` loop over `questionDetails`. -/
def calcTally (qs : List ExamQuestion) (answers : Nat → Option String) : Tally :=
  qs.foldl (tallyStep answers) initTally

/-- `percentage = totalAnswered > 0 ? (correctAnswers / totalAnswered * 100) : 0`. -/
def percentage (qs : List ExamQuestion) (answers : Nat → Option String) : ℚ :=
  let t := calcTally qs answers
  if 0 < t.totalAnswered then (t.correctAnswers : ℚ) / (t.totalAnswered : ℚ) * 100 else 0

/-- Closed-form counters used to characterise the loop: answered questions. -/
def countAnswered (qs : List ExamQuestion) (answers : Nat → Option String) : Nat :=
  qs.countP fun q => (answers q.question_id).isSome

/-- Closed-form counters: correctly answered questions. -/
def countCorrect (qs : List ExamQuestion) (answers : Nat → Option String) : Nat :=
  qs.countP fun q => answers q.question_id == some q.respuesta_correcta

/-- Closed-form counters: questions of topic `ut`. -/
def countUTTotal (ut : Nat) (qs : List ExamQuestion) : Nat :=
  qs.countP fun q => q.ut_number == ut

/-- Closed-form counters: correctly answered questions of topic `ut`. -/
def countUTCorrect (ut : Nat) (qs : List ExamQuestion) (answers : Nat → Option String) : Nat :=
  qs.countP fun q => q.ut_number == ut && (answers q.question_id == some q.respuesta_correcta)

/-- Closed-form counters: answered-but-wrong questions of topic `ut`.
Unanswered questions are not counted. -/
def countUTErrors (ut : Nat) (qs : List ExamQuestion) (answers : Nat → Option String) : Nat :=
  qs.countP fun q => q.ut_number == ut && (answers q.question_id).isSome
    && !(answers q.question_id == some q.respuesta_correcta)

/-- C1: for every completed session scored against the 11-row topic
configuration, `checkIfPassed` returns `true` iff the overall percentage is at
least 65 and, for every `ut_configuration` row flagged critical (topic 5 with
ceiling 2, topic 6 with ceiling 5, topic 11 with ceiling 2), the error count
of that topic does not exceed its max-error ceiling. -/
theorem checkIfPassed_iff (p : ℚ) (utErrors : Nat → Nat) :
    checkIfPassed p utErrors = true ↔
      (65 ≤ p ∧ ∀ row ∈ ut_configuration, row.is_critical = true →
          utErrors row.ut_number ≤ row.max_errors_allowed.getD 0) := by
  simp only [checkIfPassed, criticalUTs, ut_configuration, List.all_cons, List.all_nil,
    List.forall_mem_cons, List.forall_mem_nil, Bool.and_eq_true, decide_eq_true_eq]
  by_cases h : p < 65
  · simp [h, not_le.mpr h]
  · simp [h, not_lt.mp h]

/-- Witness for `checkIfPassed_iff` at a concrete passing input. -/
theorem checkIfPassed_iff_witness : checkIfPassed 70 (fun _ => 1) = true :=
  (checkIfPassed_iff 70 (fun _ => 1)).mpr ⟨by norm_num, by decide⟩

/-- The scoring loop, started from an arbitrary accumulator, adds the
closed-form counters to each accumulator component. -/
theorem tally_loop (answers : Nat → Option String) (qs : List ExamQuestion) (t : Tally) :
    (qs.foldl (tallyStep answers) t).correctAnswers = t.correctAnswers + countCorrect qs answers
    ∧ (qs.foldl (tallyStep answers) t).totalAnswered = t.totalAnswered + countAnswered qs answers
    ∧ ∀ ut, ((qs.foldl (tallyStep answers) t).utResults ut).correct
              = (t.utResults ut).correct + countUTCorrect ut qs answers
        ∧ ((qs.foldl (tallyStep answers) t).utResults ut).total
              = (t.utResults ut).total + countUTTotal ut qs
        ∧ ((qs.foldl (tallyStep answers) t).utResults ut).errors
              = (t.utResults ut).errors + countUTErrors ut qs answers := by
  induction qs generalizing t with
  | nil => simp [countCorrect, countAnswered, countUTCorrect, countUTTotal, countUTErrors]
  | cons q rest ih =>
    simp only [List.foldl_cons]
    obtain ⟨ih1, ih2, ih3⟩ := ih (tallyStep answers t q)
    refine ⟨?_, ?_, ?_⟩
    · rw [ih1]
      rcases h : answers q.question_id with _ | a
      · simp [tallyStep, h, countCorrect, List.countP_cons]
      · by_cases hc : a = q.respuesta_correcta <;>
          simp [tallyStep, h, hc, countCorrect, List.countP_cons] <;> omega
    · rw [ih2]
      rcases h : answers q.question_id with _ | a
      · simp [tallyStep, h, countAnswered, List.countP_cons]
      · by_cases hc : a = q.respuesta_correcta <;>
          simp [tallyStep, h, hc, countAnswered, List.countP_cons] <;> omega
    · intro ut
      obtain ⟨e1, e2, e3⟩ := ih3 ut
      rw [e1, e2, e3]
      by_cases hu : ut = q.ut_number
      · rcases h : answers q.question_id with _ | a
        · simp [tallyStep, h, hu, countUTCorrect, countUTTotal, countUTErrors,
            List.countP_cons] <;> omega
        · by_cases hc : a = q.respuesta_correcta <;>
            simp [tallyStep, h, hc, hu, countUTCorrect, countUTTotal, countUTErrors,
              List.countP_cons] <;> omega
      · rcases h : answers q.question_id with _ | a
        · simp [tallyStep, h, hu, countUTCorrect, countUTTotal, countUTErrors,
            List.countP_cons, Ne.symm hu]
        · by_cases hc : a = q.respuesta_correcta <;>
            simp [tallyStep, h, hc, hu, countUTCorrect, countUTTotal, countUTErrors,
              List.countP_cons, Ne.symm hu]

/-- The exam used in the C2 counterexample: two questions of topic 1, correct
letter `a` each. -/
def c2Questions : List ExamQuestion := [⟨1, 1, "a"⟩, ⟨2, 1, "a"⟩]

/-- The answers used in the C2 counterexample: question 1 answered correctly,
question 2 left unanswered. -/
def c2Answers : Nat → Option String := fun q => if q = 1 then some "a" else none

/-- C2 counterexample: with one correct answer and one unanswered question the
code reports 100% (dividing by the answered count), not
`correct / total_questions * 100 = 50%`, and the unanswered question is not
tallied as an error of its topic (errors stay 0 although the topic has two
questions and only one correct answer). -/
theorem percentage_denominator_counterexample :
    percentage c2Questions c2Answers ≠
      ((calcTally c2Questions c2Answers).correctAnswers : ℚ) / (c2Questions.length : ℚ) * 100
    ∧ ((calcTally c2Questions c2Answers).utResults 1).total = 2
    ∧ ((calcTally c2Questions c2Answers).utResults 1).correct = 1
    ∧ ((calcTally c2Questions c2Answers).utResults 1).errors = 0 := by
  refine ⟨?_, rfl, rfl, rfl⟩
  have h1 : percentage c2Questions c2Answers = 100 := by
    norm_num [percentage, calcTally, tallyStep, c2Questions, c2Answers, initTally]
  have h2 : ((calcTally c2Questions c2Answers).correctAnswers : ℚ) = 1 := by
    norm_num [calcTally, tallyStep, c2Questions, c2Answers, initTally]
  rw [h1, h2]
  norm_num [c2Questions]

/-- C2 amended: the loop of `calculateAndShowResults` computes
`correctAnswers`/`totalAnswered` as the counts of correctly answered and of
answered questions, each topic's counters count that topic's questions
(`errors` counting only answered-but-wrong ones, so unanswered questions are
excluded from the error tally), and the overall percentage is
`correct / answered * 100` when at least one question was answered and `0`
otherwise — the denominator is the answered count, not the exam size. -/
theorem calculateResults_closed_form (qs : List ExamQuestion) (answers : Nat → Option String) :
    (calcTally qs answers).correctAnswers = countCorrect qs answers
    ∧ (calcTally qs answers).totalAnswered = countAnswered qs answers
    ∧ (∀ ut, (calcTally qs answers).utResults ut
        = ⟨countUTCorrect ut qs answers, countUTTotal ut qs, countUTErrors ut qs answers⟩)
    ∧ percentage qs answers =
        (if 0 < countAnswered qs answers
         then (countCorrect qs answers : ℚ) / (countAnswered qs answers : ℚ) * 100 else 0) := by
  obtain ⟨h1, h2, h3⟩ := tally_loop answers qs initTally
  have hmk : ∀ (r : UTRes) (x y z : Nat),
      r.correct = x → r.total = y → r.errors = z → r = ⟨x, y, z⟩ := by
    intro r x y z hx hy hz
    cases r
    simp_all
  refine ⟨by simpa [calcTally, initTally] using h1,
          by simpa [calcTally, initTally] using h2, ?_, ?_⟩
  · intro ut
    obtain ⟨e1, e2, e3⟩ := h3 ut
    exact hmk _ _ _ _ (by simpa [calcTally, initTally] using e1)
      (by simpa [calcTally, initTally] using e2)
      (by simpa [calcTally, initTally] using e3)
  · have hc : (calcTally qs answers).correctAnswers = countCorrect qs answers := by
      simpa [calcTally, initTally] using h1
    have ha : (calcTally qs answers).totalAnswered = countAnswered qs answers := by
      simpa [calcTally, initTally] using h2
    simp [percentage, hc, ha]

/-! ## Client countdown timer (`ExamSystem` constructor, `startTimer`, `timeUp`)

The constructor sets `this.timeRemaining = 90 * 60`; `startTimer` decrements
`timeRemaining` once per second and invokes `timeUp` (which finishes the exam)
as soon as it is `<= 0`.  No server-side clock exists in the code: the counter
is ordinary mutable client state. -/

/-- `this.timeRemaining = 90 * 60; // 90 minutos en segundos`. -/
def initialTimeRemaining : Int := 90 * 60

/-- Run the `setInterval` body `k` times starting from a remaining-seconds
value `r`: each tick decrements, and when the counter reaches `<= 0` the exam
times out (second component `true`) and the timer stops. -/
def timerRun : Int → Nat → Int × Bool
  | r, 0 => (r, false)
  | r, k + 1 => if r - 1 ≤ 0 then (r - 1, true) else timerRun (r - 1) k

/-- C6 counterexample: the timeout decision depends on the client-held
remaining time.  Two runs of the same length (one tick) that differ only in
the client-reported remaining time — `1` second versus the standard
`initialTimeRemaining` — produce different timeout outcomes, so the elapsed
duration is not computed server-side from the start timestamp. -/
theorem timer_client_trust_counterexample :
    (timerRun 1 1).2 = true
    ∧ (timerRun initialTimeRemaining 1).2 = false
    ∧ (1 : Int) ≠ initialTimeRemaining := by
  decide

/-- C6 amended: the allotted duration is fixed at 90 minutes (5400 seconds),
but timing is enforced client-side: after `k` ticks the session has timed out
iff the client-held counter `r` (whatever the client reports) satisfies
`r ≤ k`.  The outcome is a function of the client counter, not of any
server-side start timestamp. -/
theorem timer_timeout_iff (r : Int) (k : Nat) (h : 0 < r) :
    initialTimeRemaining = 5400 ∧ ((timerRun r k).2 = true ↔ r ≤ (k : Int)) := by
  refine ⟨rfl, ?_⟩
  revert h
  induction k generalizing r with
  | zero =>
    intro h
    simp only [timerRun, Nat.cast_zero]
    constructor
    · intro hf; cases hf
    · intro hr; omega
  | succ n ih =>
    intro h
    simp only [timerRun]
    by_cases hr : r - 1 ≤ 0
    · rw [if_pos hr]
      simp only [true_iff]
      push_cast
      omega
    · rw [if_neg hr, ih (r - 1) (by omega)]
      push_cast
      omega

/-- Witness for `timer_timeout_iff`: from 2 remaining seconds, 3 ticks time
the exam out. -/
theorem timer_timeout_iff_witness : (timerRun 2 3).2 = true :=
  ((timer_timeout_iff 2 3 (by decide)).2).mpr (by decide)

/-! ## Session states and transitions

Statuses persisted by the schema (`user_exams.status CHECK (status IN
('in_progress', 'completed', 'abandoned'))`) plus the client-side paused
state (`pauseExam` stops the interval timer; the exam screen stays up).
Transitions are those of `pauseExam` (toggle), `finishExam` (available from
the finish button whether or not the timer is paused), `timeUp` (fires from
the running timer) and the schema's `abandoned` status. -/

inductive SessionStatus
  | in_progress
  | paused
  | completed
  | abandoned
deriving DecidableEq

/-- The string stored in `user_exams.status` (the paused state is client-side
only; while paused the persisted row still carries its previous status, shown
here under the spec's name for comparison purposes). -/
def statusName : SessionStatus → String
  | .in_progress => "in_progress"
  | .paused => "paused"
  | .completed => "completed"
  | .abandoned => "abandoned"

/-- The six status names admitted by the claim. -/
def specStatuses : List String :=
  ["not_started", "in_progress", "paused", "completed", "timed_out", "abandoned"]

/-- Session transitions observable in the code: `pauseExam` toggles between
running and paused; `finishExam` completes the exam from either state (the
finish button is not disabled while paused); `timeUp` completes it from the
running state; the schema admits `abandoned`. -/
inductive Step : SessionStatus → SessionStatus → Prop
  | pause : Step .in_progress .paused
  | resume : Step .paused .in_progress
  | finish_running : Step .in_progress .completed
  | finish_paused : Step .paused .completed
  | time_up : Step .in_progress .completed
  | abandon : Step .in_progress .abandoned

/-- C7 counterexample: `finishExam` can be invoked while the timer is paused,
so the paused state transitions directly to `completed`, not only back to
`in_progress`. -/
theorem paused_to_completed_counterexample :
    Step SessionStatus.paused SessionStatus.completed
    ∧ SessionStatus.completed ≠ SessionStatus.in_progress :=
  ⟨Step.finish_paused, by decide⟩

/-- C7 amended: every status is among the six names the claim lists, and
`paused` is reachable only from `in_progress`; but from `paused` the session
moves either back to `in_progress` (resume, or a cancelled finish dialog) or
directly to `completed` (the finish action while paused). -/
theorem session_status_machine :
    (∀ s : SessionStatus, statusName s ∈ specStatuses)
    ∧ (∀ s s' : SessionStatus, Step s s' → s' = SessionStatus.paused →
        s = SessionStatus.in_progress)
    ∧ (∀ s' : SessionStatus, Step SessionStatus.paused s' →
        s' = SessionStatus.in_progress ∨ s' = SessionStatus.completed) := by
  refine ⟨?_, ?_, ?_⟩
  · intro s
    cases s <;> decide
  · intro s s' h he
    cases h <;> simp_all
  · intro s' h
    cases h
    · exact Or.inl rfl
    · exact Or.inr rfl

/-- Witness for `session_status_machine` at the resume transition. -/
theorem session_status_machine_witness :
    SessionStatus.in_progress = SessionStatus.in_progress
    ∨ SessionStatus.in_progress = SessionStatus.completed :=
  session_status_machine.2.2 SessionStatus.in_progress Step.resume

/-! ## Answer recording (`ExamSystem.saveAnswer`) -/

/-- `saveAnswer(questionId, answer) { this.userAnswers[questionId] = answer; }`
— an unconditional write into the answers map. -/
def saveAnswer (answers : Nat → Option String) (questionId : Nat) (answer : String) :
    Nat → Option String :=
  fun q => if q = questionId then some answer else answers q

/-- The option letters rendered for a four-option question
(`displayCurrentQuestion` iterates `['a', 'b', 'c', 'd']`). -/
structure ClientQuestion where
  question_id : Nat
  opciones : List String
deriving DecidableEq

/-- A concrete rendered question with options a–d. -/
def sampleQuestion : ClientQuestion := ⟨7, ["a", "b", "c", "d"]⟩

/-- C8 counterexample: `saveAnswer` records the letter `z`, which is not one
of the question's option letters, instead of rejecting it — the session state
is modified by an invalid answer. -/
theorem saveAnswer_no_validation_counterexample :
    "z" ∉ sampleQuestion.opciones
    ∧ saveAnswer (fun _ => none) sampleQuestion.question_id "z" sampleQuestion.question_id
        = some "z" :=
  ⟨by decide, rfl⟩

/-- C8 amended: `saveAnswer` performs no session-status check and no letter
validation; it unconditionally overwrites the answer of the given question and
leaves every other question's answer unchanged. -/
theorem saveAnswer_overwrites (answers : Nat → Option String) (questionId : Nat)
    (answer : String) :
    saveAnswer answers questionId answer questionId = some answer
    ∧ ∀ q, q ≠ questionId → saveAnswer answers questionId answer q = answers q :=
  ⟨by simp [saveAnswer], fun q hq => by simp [saveAnswer, hq]⟩

/-- Witness for `saveAnswer_overwrites`: writing question 1 leaves question 2
untouched. -/
theorem saveAnswer_overwrites_witness :
    saveAnswer (fun _ => some "a") 1 "b" 2 = some "a" :=
  (saveAnswer_overwrites (fun _ => some "a") 1 "b").2 2 (by decide)

/-! ## Explanation cache (`script.js`: `renderExplanationButton`,
`checkExplanationExists`, `generateExplanation`)

The loaded `this.explicaciones` object is modelled as an association list
keyed by question hash.  `renderExplanationButton` picks the "view" path when
`checkExplanationExists` is truthy (showing the cached explanation, no
generator call) and the "generate" path otherwise; `generateExplanation`
invokes the external generator (`callOpenAI`) and stores the result. -/

/-- `checkExplanationExists(hashPregunta)`: JavaScript truthiness of
`hashPregunta && this.explicaciones.hasOwnProperty(hashPregunta)` — a `null`
or empty hash is falsy, otherwise the cache is consulted for the key. -/
def checkExplanationExists (explicaciones : List (String × String)) (fp : Option String) :
    Bool :=
  match fp with
  | none => false
  | some h => (h != "") && (explicaciones.lookup h).isSome

/-- Outcome of one get-or-generate round trip: the explanation delivered to
the caller, how many times the external generator was invoked, and the cache
afterwards. -/
structure ExplanationOutcome where
  explanation : Option String
  generatorCalls : Nat
  cache : List (String × String)
deriving DecidableEq

/-- The client flow for one question hash: if `checkExplanationExists` is
truthy the cached explanation is shown (`showExplanation`, no generator
call); otherwise `generateExplanation` runs, which calls the external
generator once and stores the result under the hash.  A `null` hash aborts
(`findQuestionByHash` finds nothing) without calling the generator. -/
def getOrGenerate (explicaciones : List (String × String)) (fp : Option String)
    (generated : String) : ExplanationOutcome :=
  if checkExplanationExists explicaciones fp then
    { explanation := explicaciones.lookup (fp.getD ""),
      generatorCalls := 0,
      cache := explicaciones }
  else
    match fp with
    | some h => { explanation := some generated,
                  generatorCalls := 1,
                  cache := (h, generated) :: explicaciones }
    | none => { explanation := none, generatorCalls := 0, cache := explicaciones }

/-- C5: for every fingerprint with a cached explanation, the get-or-generate
flow returns that cached explanation, performs no call to the external
generator, and leaves the cache unchanged. -/
theorem cached_explanation_no_generation (explicaciones : List (String × String))
    (h e g : String) (hne : h ≠ "") (hc : explicaciones.lookup h = some e) :
    getOrGenerate explicaciones (some h) g = ⟨some e, 0, explicaciones⟩ := by
  have ht : checkExplanationExists explicaciones (some h) = true := by
    simp [checkExplanationExists, hc, hne]
  simp [getOrGenerate, ht, hc]

/-- Witness for `cached_explanation_no_generation` on a one-entry cache. -/
theorem cached_explanation_no_generation_witness :
    getOrGenerate [("abc123", "the explanation")] (some "abc123") "fresh"
      = ⟨some "the explanation", 0, [("abc123", "the explanation")]⟩ :=
  cached_explanation_no_generation [("abc123", "the explanation")]
    "abc123" "the explanation" "fresh" (by decide) (by decide)

/-! ## Concurrent generation (C4)

`generateExplanation` consults no lock and does not re-check the cache before
calling `callOpenAI`: its cache-relevant trace is always one generator call
followed by one store.  Concurrent requests are modelled as arbitrary
interleavings of such traces. -/

/-- The cache-relevant atomic actions of one `generateExplanation` run. -/
inductive CacheAction
  | genCall
  | store
deriving DecidableEq

/-- The trace of one `generateExplanation` execution: it unconditionally
calls the external generator, then stores the result. -/
def generateTrace : List CacheAction := [CacheAction.genCall, CacheAction.store]

/-- `Interleave xs ys zs`: `zs` is an order-preserving merge of `xs` and
`ys`. -/
inductive Interleave : List CacheAction → List CacheAction → List CacheAction → Prop
  | nil : Interleave [] [] []
  | left {a : CacheAction} {xs ys zs : List CacheAction} :
      Interleave xs ys zs → Interleave (a :: xs) ys (a :: zs)
  | right {a : CacheAction} {xs ys zs : List CacheAction} :
      Interleave xs ys zs → Interleave xs (a :: ys) (a :: zs)

/-- `ConcurrentRuns ts tr`: `tr` is an interleaving of all the traces in
`ts`. -/
inductive ConcurrentRuns : List (List CacheAction) → List CacheAction → Prop
  | nil : ConcurrentRuns [] []
  | cons {t : List CacheAction} {ts : List (List CacheAction)}
      {rest all : List CacheAction} :
      Interleave t rest all → ConcurrentRuns ts rest → ConcurrentRuns (t :: ts) all

/-- Number of external-generator calls in a trace. -/
def genCalls (l : List CacheAction) : Nat :=
  l.countP fun a => a == CacheAction.genCall

/-- An interleaving carries the generator calls of both sides. -/
theorem genCalls_interleave {xs ys zs : List CacheAction} (h : Interleave xs ys zs) :
    genCalls zs = genCalls xs + genCalls ys := by
  induction h with
  | nil => rfl
  | left _ ih => simp [genCalls, List.countP_cons] at ih ⊢; omega
  | right _ ih => simp [genCalls, List.countP_cons] at ih ⊢; omega

/-- Appending traces is one particular interleaving. -/
theorem interleave_append (xs ys : List CacheAction) : Interleave xs ys (xs ++ ys) := by
  induction xs with
  | nil =>
    induction ys with
    | nil => exact Interleave.nil
    | cons a ys ih => exact Interleave.right ih
  | cons a xs ih => exact Interleave.left ih

/-- C4 counterexample: two concurrent `generateExplanation` runs for the same
uncached fingerprint — here interleaved sequentially — make two calls to the
external generator, not exactly one. -/
theorem coalescing_counterexample :
    ConcurrentRuns (List.replicate 2 generateTrace) (generateTrace ++ generateTrace)
    ∧ genCalls (generateTrace ++ generateTrace) ≠ 1 := by
  constructor
  · exact ConcurrentRuns.cons (interleave_append generateTrace generateTrace)
      (ConcurrentRuns.cons (by simpa using interleave_append generateTrace [])
        ConcurrentRuns.nil)
  · decide

/-- C4 amended: with no lock and no cache re-check in `generateExplanation`,
every interleaving of `n` concurrent generation runs for the same uncached
fingerprint calls the external generator exactly `n` times (once per caller),
not exactly once. -/
theorem concurrent_generate_calls (n : Nat) (tr : List CacheAction)
    (h : ConcurrentRuns (List.replicate n generateTrace) tr) :
    genCalls tr = n := by
  induction n generalizing tr with
  | zero =>
    cases h
    rfl
  | succ m ih =>
    rw [List.replicate_succ] at h
    cases h with
    | cons hil hrest =>
      rw [genCalls_interleave hil, ih _ hrest]
      simp [genCalls, generateTrace]
      omega

/-- Witness for `concurrent_generate_calls` at the concrete two-caller
interleaving. -/
theorem concurrent_generate_calls_witness :
    genCalls (generateTrace ++ generateTrace) = 2 :=
  concurrent_generate_calls 2 (generateTrace ++ generateTrace)
    (ConcurrentRuns.cons (interleave_append generateTrace generateTrace)
      (ConcurrentRuns.cons (by simpa using interleave_append generateTrace [])
        ConcurrentRuns.nil))

/-! ## Viewer deduplication (`script.js` `deduplicateQuestions`) -/

/-- The fields of a viewer question record that `deduplicateQuestions`
reads — `hash_pregunta` may be absent on a record, hence `Option`. -/
structure ViewerQuestion where
  hash_pregunta : Option String
  examen_titulacion : String
  examen_convocatoria : String
  examen_test : String
  numero : Nat
deriving DecidableEq

/-- One entry of `todas_apariciones` as built in `deduplicateQuestions`. -/
structure Occurrence where
  examen_titulacion : String
  examen_convocatoria : String
  examen_test : String
  numero : Nat
deriving DecidableEq

/-- A question annotated with `todas_apariciones` (the JS spread
`{...question, todas_apariciones}`). -/
structure EnhancedQuestion where
  question : ViewerQuestion
  todas_apariciones : List Occurrence
deriving DecidableEq

/-- `questions.filter(q => q.hash_pregunta === hash).map(...)`: all
occurrences of a hash in the input, projected to their exam coordinates. -/
def occurrencesOf (questions : List ViewerQuestion) (h : String) : List Occurrence :=
  (questions.filter fun q => q.hash_pregunta == some h).map
    fun q => ⟨q.examen_titulacion, q.examen_convocatoria, q.examen_test, q.numero⟩

/-- The `forEach` of `deduplicateQuestions` with the `Map` of already-seen
hashes made explicit: a question is kept when its hash is truthy
(present and non-empty) and not seen before; insertion order of the `Map`
matches the order of first occurrence. -/
def dedupGo (all : List ViewerQuestion) :
    List ViewerQuestion → List String → List EnhancedQuestion
  | [], _ => []
  | q :: rest, seen =>
    match q.hash_pregunta with
    | none => dedupGo all rest seen
    | some h =>
      if h = "" then dedupGo all rest seen
      else if h ∈ seen then dedupGo all rest seen
      else ⟨q, occurrencesOf all h⟩ :: dedupGo all rest (h :: seen)

/-- `deduplicateQuestions(questions)`: one pass over the input, annotating the
first occurrence of each truthy hash with all of its occurrences. -/
def deduplicateQuestions (questions : List ViewerQuestion) : List EnhancedQuestion :=
  dedupGo questions questions []

/-- A record whose `hash_pregunta` is present but empty. -/
def emptyHashQuestion : ViewerQuestion := ⟨some "", "PER", "2024-06", "1", 3⟩

/-- C10 counterexample: a question whose `hash_pregunta` is the empty string
has a present hash value, yet `deduplicateQuestions` silently drops it (the
JavaScript truthiness test `if (hash && ...)` fails on `""`), so the output is
not the first occurrence of every distinct present hash value. -/
theorem dedup_empty_hash_counterexample :
    emptyHashQuestion.hash_pregunta = some ""
    ∧ deduplicateQuestions [emptyHashQuestion] = [] :=
  ⟨rfl, rfl⟩

/-- `find?` skips a prefix on which the predicate is everywhere false. -/
theorem find?_none_append {α : Type} {p : α → Bool} {l₁ : List α}
    (h : ∀ x ∈ l₁, p x = false) (l₂ : List α) : (l₁ ++ l₂).find? p = l₂.find? p := by
  induction l₁ with
  | nil => rfl
  | cons a l ih =>
    rw [List.cons_append, List.find?_cons_of_neg]
    · exact ih fun x hx => h x (by simp [hx])
    · simp [h a (by simp)]

/-- Invariant of the deduplication pass: processing the suffix `cur` of the
input with `seen` holding exactly the truthy hashes of the processed prefix
yields first occurrences with correct annotations, pairwise-distinct hashes,
full coverage of unseen truthy hashes, and input order. -/
theorem dedupGo_spec (all : List ViewerQuestion) :
    ∀ (cur pre : List ViewerQuestion) (seen : List String),
    all = pre ++ cur →
    (∀ hh : String, hh ∈ seen ↔ ∃ q ∈ pre, q.hash_pregunta = some hh ∧ hh ≠ "") →
    (∀ e ∈ dedupGo all cur seen, ∃ h : String,
        e.question.hash_pregunta = some h ∧ h ≠ ""
        ∧ e.todas_apariciones = occurrencesOf all h
        ∧ all.find? (fun q => q.hash_pregunta == some h) = some e.question
        ∧ h ∉ seen)
    ∧ ((dedupGo all cur seen).map fun e => e.question.hash_pregunta).Nodup
    ∧ (∀ q ∈ cur, ∀ h : String, q.hash_pregunta = some h → h ≠ "" → h ∉ seen →
        ∃ e ∈ dedupGo all cur seen, e.question.hash_pregunta = some h)
    ∧ ((dedupGo all cur seen).map fun e => e.question).Sublist cur := by
  intro cur
  induction cur with
  | nil =>
    intro pre seen hall hseen
    simp [dedupGo]
  | cons q rest ih =>
    intro pre seen hall hseen
    rcases hq : q.hash_pregunta with _ | h
    · -- hash absent: the question is skipped
      have hall' : all = (pre ++ [q]) ++ rest := by simpa using hall
      have hseen' : ∀ hh : String,
          hh ∈ seen ↔ ∃ p ∈ pre ++ [q], p.hash_pregunta = some hh ∧ hh ≠ "" := by
        intro hh
        rw [hseen hh]
        constructor
        · rintro ⟨p, hp, hh1, hh2⟩; exact ⟨p, by simp [hp], hh1, hh2⟩
        · rintro ⟨p, hp, hh1, hh2⟩
          rcases List.mem_append.mp hp with hp | hp
          · exact ⟨p, hp, hh1, hh2⟩
          · simp only [List.mem_singleton] at hp
            subst hp
            rw [hq] at hh1
            cases hh1
      obtain ⟨P1, P2, P3, P4⟩ := ih (pre ++ [q]) seen hall' hseen'
      rw [show dedupGo all (q :: rest) seen = dedupGo all rest seen by simp [dedupGo, hq]]
      refine ⟨P1, P2, ?_, P4.cons q⟩
      intro q' hq' h' hh' hne hmem
      rcases List.mem_cons.mp hq' with rfl | hq'
      · rw [hq] at hh'; cases hh'
      · exact P3 q' hq' h' hh' hne hmem
    · by_cases he : h = ""
      · -- empty hash: falsy, skipped
        subst he
        have hall' : all = (pre ++ [q]) ++ rest := by simpa using hall
        have hseen' : ∀ hh : String,
            hh ∈ seen ↔ ∃ p ∈ pre ++ [q], p.hash_pregunta = some hh ∧ hh ≠ "" := by
          intro hh
          rw [hseen hh]
          constructor
          · rintro ⟨p, hp, hh1, hh2⟩; exact ⟨p, by simp [hp], hh1, hh2⟩
          · rintro ⟨p, hp, hh1, hh2⟩
            rcases List.mem_append.mp hp with hp | hp
            · exact ⟨p, hp, hh1, hh2⟩
            · simp only [List.mem_singleton] at hp
              subst hp
              rw [hq] at hh1
              cases hh1
              exact absurd rfl hh2
        obtain ⟨P1, P2, P3, P4⟩ := ih (pre ++ [q]) seen hall' hseen'
        rw [show dedupGo all (q :: rest) seen = dedupGo all rest seen by simp [dedupGo, hq]]
        refine ⟨P1, P2, ?_, P4.cons q⟩
        intro q' hq' h' hh' hne hmem
        rcases List.mem_cons.mp hq' with rfl | hq'
        · rw [hq] at hh'
          cases hh'
          exact absurd rfl hne
        · exact P3 q' hq' h' hh' hne hmem
      · by_cases hs : h ∈ seen
        · -- hash already seen: skipped
          have hall' : all = (pre ++ [q]) ++ rest := by simpa using hall
          have hseen' : ∀ hh : String,
              hh ∈ seen ↔ ∃ p ∈ pre ++ [q], p.hash_pregunta = some hh ∧ hh ≠ "" := by
            intro hh
            constructor
            · intro hmem
              obtain ⟨p, hp, hh1, hh2⟩ := (hseen hh).mp hmem
              exact ⟨p, by simp [hp], hh1, hh2⟩
            · rintro ⟨p, hp, hh1, hh2⟩
              rcases List.mem_append.mp hp with hp | hp
              · exact (hseen hh).mpr ⟨p, hp, hh1, hh2⟩
              · simp only [List.mem_singleton] at hp
                subst hp
                rw [hq] at hh1
                cases hh1
                exact hs
          obtain ⟨P1, P2, P3, P4⟩ := ih (pre ++ [q]) seen hall' hseen'
          rw [show dedupGo all (q :: rest) seen = dedupGo all rest seen by
            simp [dedupGo, hq, he, hs]]
          refine ⟨P1, P2, ?_, P4.cons q⟩
          intro q' hq' h' hh' hne hmem
          rcases List.mem_cons.mp hq' with rfl | hq'
          · rw [hq] at hh'
            cases hh'
            exact absurd hs hmem
          · exact P3 q' hq' h' hh' hne hmem
        · -- fresh truthy hash: kept
          have hall' : all = (pre ++ [q]) ++ rest := by simpa using hall
          have hseen' : ∀ hh : String,
              hh ∈ h :: seen ↔ ∃ p ∈ pre ++ [q], p.hash_pregunta = some hh ∧ hh ≠ "" := by
            intro hh
            constructor
            · intro hmem
              rcases List.mem_cons.mp hmem with rfl | hmem
              · exact ⟨q, by simp, hq, he⟩
              · obtain ⟨p, hp, hh1, hh2⟩ := (hseen hh).mp hmem
                exact ⟨p, by simp [hp], hh1, hh2⟩
            · rintro ⟨p, hp, hh1, hh2⟩
              rcases List.mem_append.mp hp with hp | hp
              · exact List.mem_cons_of_mem _ ((hseen hh).mpr ⟨p, hp, hh1, hh2⟩)
              · simp only [List.mem_singleton] at hp
                subst hp
                rw [hq] at hh1
                cases hh1
                exact List.mem_cons_self _ _
          obtain ⟨P1, P2, P3, P4⟩ := ih (pre ++ [q]) (h :: seen) hall' hseen'
          have hout : dedupGo all (q :: rest) seen
              = ⟨q, occurrencesOf all h⟩ :: dedupGo all rest (h :: seen) := by
            simp [dedupGo, hq, he, hs]
          have hfind : all.find? (fun p => p.hash_pregunta == some h) = some q := by
            rw [hall]
            rw [find?_none_append]
            · rw [List.find?_cons_of_pos]
              simp [hq]
            · intro p hp
              by_cases hph : p.hash_pregunta = some h
              · exact absurd ((hseen h).mpr ⟨p, hp, hph, he⟩) hs
              · simp [hph]
          rw [hout]
          refine ⟨?_, ?_, ?_, ?_⟩
          · intro e hmem
            rcases List.mem_cons.mp hmem with rfl | hmem
            · exact ⟨h, hq, he, rfl, hfind, hs⟩
            · obtain ⟨h', e1, e2, e3, e4, e5⟩ := P1 e hmem
              exact ⟨h', e1, e2, e3, e4, fun c => e5 (List.mem_cons_of_mem _ c)⟩
          · rw [List.map_cons]
            refine List.nodup_cons.mpr ⟨?_, P2⟩
            intro hcon
            obtain ⟨e, hemem, heq⟩ := List.mem_map.mp hcon
            obtain ⟨h', e1, e2, e3, e4, e5⟩ := P1 e hemem
            rw [hq] at heq
            rw [e1] at heq
            cases heq
            exact e5 (List.mem_cons_self _ _)
          · intro q' hq' h' hh' hne hmem
            rcases List.mem_cons.mp hq' with rfl | hq'
            · rw [hq] at hh'
              cases hh'
              exact ⟨_, List.mem_cons_self _ _, hq⟩
            · by_cases hhh : h' = h
              · subst hhh
                exact ⟨_, List.mem_cons_self _ _, hq⟩
              · obtain ⟨e, he1, he2⟩ := P3 q' hq' h' hh' hne (by
                  intro hc
                  rcases List.mem_cons.mp hc with rfl | hc
                  · exact hhh rfl
                  · exact hmem hc)
                exact ⟨e, List.mem_cons_of_mem _ he1, he2⟩
          · rw [List.map_cons]
            exact P4.cons₂ q

/-- C10 amended: `deduplicateQuestions` returns, in input order, exactly the
first occurrence of each distinct present *non-empty* `hash_pregunta` value,
each annotated with the projected list of all occurrences of that hash in the
input; output hashes are pairwise distinct, and questions whose hash is
missing — or present but empty, which JavaScript truthiness also drops — do
not appear. -/
theorem deduplicateQuestions_spec (qs : List ViewerQuestion) :
    (∀ e ∈ deduplicateQuestions qs, ∃ h : String,
        e.question.hash_pregunta = some h ∧ h ≠ ""
        ∧ e.todas_apariciones = occurrencesOf qs h
        ∧ qs.find? (fun q => q.hash_pregunta == some h) = some e.question)
    ∧ ((deduplicateQuestions qs).map fun e => e.question.hash_pregunta).Nodup
    ∧ (∀ q ∈ qs, ∀ h : String, q.hash_pregunta = some h → h ≠ "" →
        ∃ e ∈ deduplicateQuestions qs, e.question.hash_pregunta = some h)
    ∧ ((deduplicateQuestions qs).map fun e => e.question).Sublist qs := by
  obtain ⟨P1, P2, P3, P4⟩ := dedupGo_spec qs qs [] [] rfl (by simp)
  refine ⟨?_, P2, ?_, P4⟩
  · intro e he
    obtain ⟨h, e1, e2, e3, e4, _⟩ := P1 e he
    exact ⟨h, e1, e2, e3, e4⟩
  · intro q hqmem h hh hne
    exact P3 q hqmem h hh hne (by simp)

/-- First appearance of the duplicated hash `h1`. -/
def dupQuestionA : ViewerQuestion := ⟨some "h1", "PER", "2024-06", "1", 3⟩

/-- Second appearance of the duplicated hash `h1`. -/
def dupQuestionB : ViewerQuestion := ⟨some "h1", "PER", "2025-04", "2", 7⟩

/-- Witness for `deduplicateQuestions_spec` on a two-element input sharing
one hash. -/
theorem deduplicateQuestions_spec_witness :
    ∃ e ∈ deduplicateQuestions [dupQuestionA, dupQuestionB],
      e.question.hash_pregunta = some "h1" :=
  (deduplicateQuestions_spec [dupQuestionA, dupQuestionB]).2.2.1 dupQuestionA
    (by simp) "h1" rfl (by decide)

/-! ## Exam assembly (C3)

The exam generator runs server side (`POST /exams/generate`) and its code is
not among the front-end sources; only its SQL declarations are
(`exam_questions` with `question_order` 1–45 and uniqueness of
`(user_exam_id, question_id)`, and the `ut_configuration` quotas).  The
assembler below is modelled from the spec, §4.3. -/

/-- Modelled from the spec: a pool question as the assembler sees it — a
content fingerprint (represented by a numeric identifier) and its topic
number. The server-side generator itself is not under the front-end
sources. -/
structure PoolQ where
  fp : Nat
  ut : Nat
deriving DecidableEq

/-- Modelled from the spec: draw `n` candidates from a topic's pool in pool
order, rejecting any candidate whose fingerprint already appears in the exam
under construction (`used`); fail when the pool runs out first.  Quantifying
over all pool orders covers every random draw without replacement. -/
def pickDistinct (used : List Nat) : List PoolQ → Nat → Option (List PoolQ)
  | _, 0 => some []
  | [], _ + 1 => none
  | q :: rest, n + 1 =>
    if q.fp ∈ used then pickDistinct used rest (n + 1)
    else
      match pickDistinct (q.fp :: used) rest n with
      | none => none
      | some l => some (q :: l)

/-- Modelled from the spec: assemble quota-many questions for each
`ut_configuration` row in turn, threading the set of fingerprints already
used; the whole assembly fails if any topic cannot meet its quota. -/
def assembleGo (pool : Nat → List PoolQ) : List UTRow → List Nat → Option (List PoolQ)
  | [], _ => some []
  | row :: rows, used =>
    match pickDistinct used (pool row.ut_number) row.questions_per_exam with
    | none => none
    | some qs =>
      match assembleGo pool rows (used ++ qs.map PoolQ.fp) with
      | none => none
      | some rest => some (qs ++ rest)

/-- Modelled from the spec: `assemble(userId, filters)` against a filtered
pool view `pool`, starting from an empty exam.  (The final shuffle of
positions permutes the list and so preserves length, per-topic counts and
fingerprint distinctness; it is omitted.) -/
def assemble (pool : Nat → List PoolQ) : Option (List PoolQ) :=
  assembleGo pool ut_configuration []

/-- A successful draw returns exactly `n` questions from the candidate list,
with pairwise-distinct fingerprints all avoiding `used`. -/
theorem pickDistinct_spec :
    ∀ (cands : List PoolQ) (n : Nat) (used : List Nat) (l : List PoolQ),
    pickDistinct used cands n = some l →
    l.length = n ∧ (∀ q ∈ l, q ∈ cands) ∧ (l.map PoolQ.fp).Nodup
    ∧ (∀ q ∈ l, q.fp ∉ used) := by
  intro cands
  induction cands with
  | nil =>
    intro n used l hp
    cases n with
    | zero =>
      simp only [pickDistinct, Option.some.injEq] at hp
      subst hp
      simp
    | succ m =>
      simp only [pickDistinct] at hp
      cases hp
  | cons q rest ih =>
    intro n used l hp
    cases n with
    | zero =>
      simp only [pickDistinct, Option.some.injEq] at hp
      subst hp
      simp
    | succ m =>
      simp only [pickDistinct] at hp
      by_cases hmem : q.fp ∈ used
      · rw [if_pos hmem] at hp
        obtain ⟨h1, h2, h3, h4⟩ := ih (m + 1) used l hp
        exact ⟨h1, fun p hpl => List.mem_cons_of_mem _ (h2 p hpl), h3, h4⟩
      · rw [if_neg hmem] at hp
        rcases hrec : pickDistinct (q.fp :: used) rest m with _ | l'
        · rw [hrec] at hp; cases hp
        · rw [hrec] at hp
          simp only [Option.some.injEq] at hp
          subst hp
          obtain ⟨h1, h2, h3, h4⟩ := ih m (q.fp :: used) l' hrec
          refine ⟨by simp [h1], ?_, ?_, ?_⟩
          · intro p hpl
            rcases List.mem_cons.mp hpl with rfl | hpl
            · exact List.mem_cons_self _ _
            · exact List.mem_cons_of_mem _ (h2 p hpl)
          · rw [List.map_cons]
            refine List.nodup_cons.mpr ⟨?_, h3⟩
            intro hc
            obtain ⟨p, hpmem, hpf⟩ := List.mem_map.mp hc
            exact (h4 p hpmem) (by rw [hpf]; exact List.mem_cons_self _ _)
          · intro p hpl
            rcases List.mem_cons.mp hpl with rfl | hpl
            · exact hmem
            · exact fun hc => (h4 p hpl) (List.mem_cons_of_mem _ hc)

/-- Invariant of assembly over a row list: the exam has the summed quota
length, pairwise-distinct fingerprints avoiding `used`, topics drawn from the
rows, and — when the rows' topic numbers are distinct — exact per-topic
counts. -/
theorem assembleGo_spec (pool : Nat → List PoolQ) (hw : ∀ t, ∀ q ∈ pool t, q.ut = t) :
    ∀ (rows : List UTRow) (used : List Nat) (ex : List PoolQ),
    assembleGo pool rows used = some ex →
    ex.length = (rows.map UTRow.questions_per_exam).sum
    ∧ (ex.map PoolQ.fp).Nodup
    ∧ (∀ q ∈ ex, q.fp ∉ used)
    ∧ (∀ q ∈ ex, q.ut ∈ rows.map UTRow.ut_number)
    ∧ ((rows.map UTRow.ut_number).Nodup →
        ∀ row ∈ rows, (ex.filter fun q => q.ut == row.ut_number).length
          = row.questions_per_exam) := by
  intro rows
  induction rows with
  | nil =>
    intro used ex hp
    simp only [assembleGo, Option.some.injEq] at hp
    subst hp
    simp
  | cons row rows ih =>
    intro used ex hp
    simp only [assembleGo] at hp
    rcases hpick : pickDistinct used (pool row.ut_number) row.questions_per_exam with _ | qs
    · rw [hpick] at hp
      cases hp
    · rw [hpick] at hp
      dsimp only at hp
      rcases hrec : assembleGo pool rows (used ++ qs.map PoolQ.fp) with _ | rest
      · rw [hrec] at hp
        cases hp
      · rw [hrec] at hp
        dsimp only at hp
        simp only [Option.some.injEq] at hp
        subst hp
        obtain ⟨pl, pmem, pnd, pnu⟩ :=
          pickDistinct_spec (pool row.ut_number) row.questions_per_exam used qs hpick
        obtain ⟨rl, rnd, rnu, rtag, rcount⟩ := ih (used ++ qs.map PoolQ.fp) rest hrec
        have hqsut : ∀ q ∈ qs, q.ut = row.ut_number := fun q hq => hw _ q (pmem q hq)
        refine ⟨?_, ?_, ?_, ?_, ?_⟩
        · simp [pl, rl]
        · rw [List.map_append]
          refine List.Nodup.append pnd rnd ?_
          intro a ha hb
          obtain ⟨p, hpmem, rfl⟩ := List.mem_map.mp hb
          exact (rnu p hpmem) (List.mem_append.mpr (Or.inr ha))
        · intro p hpmem hc
          rcases List.mem_append.mp hpmem with hqs | hrest
          · exact (pnu p hqs) hc
          · exact (rnu p hrest) (List.mem_append.mpr (Or.inl hc))
        · intro p hpmem
          rw [List.map_cons]
          rcases List.mem_append.mp hpmem with hqs | hrest
          · rw [hqsut p hqs]
            exact List.mem_cons_self _ _
          · exact List.mem_cons_of_mem _ (rtag p hrest)
        · intro hnd r hr
          rw [List.map_cons, List.nodup_cons] at hnd
          rcases List.mem_cons.mp hr with rfl | hr
          · rw [List.filter_append, List.length_append]
            have h1 : qs.filter (fun q => q.ut == r.ut_number) = qs :=
              List.filter_eq_self.mpr fun q hq => by simp [hqsut q hq]
            have h2 : rest.filter (fun q => q.ut == r.ut_number) = [] := by
              refine List.filter_eq_nil.mpr fun q hq => ?_
              have htag := rtag q hq
              simp only [beq_iff_eq]
              intro hqq
              rw [hqq] at htag
              exact hnd.1 htag
            rw [h1, h2, pl]
            simp
          · rw [List.filter_append, List.length_append]
            have h1 : qs.filter (fun q => q.ut == r.ut_number) = [] := by
              refine List.filter_eq_nil.mpr fun q hq => ?_
              simp only [beq_iff_eq]
              intro hqq
              rw [hqsut q hq] at hqq
              rw [hqq] at hnd
              exact hnd.1 (List.mem_map.mpr ⟨r, hr, rfl⟩)
            rw [h1, rcount hnd.2 r hr]
            simp

/-- C3: every successfully assembled exam contains exactly 45 questions — the
sum of the 11 per-topic quotas (4,2,4,2,5,10,2,3,4,5,4) — with per-topic
counts exactly equal to the `ut_configuration` quotas and no two questions
sharing the same content fingerprint. -/
theorem assemble_spec (pool : Nat → List PoolQ) (ex : List PoolQ)
    (hw : ∀ t, ∀ q ∈ pool t, q.ut = t)
    (ha : assemble pool = some ex) :
    ex.length = 45
    ∧ (∀ row ∈ ut_configuration,
        (ex.filter fun q => q.ut == row.ut_number).length = row.questions_per_exam)
    ∧ (ex.map PoolQ.fp).Nodup := by
  obtain ⟨hlen, hnd, _, _, hcnt⟩ := assembleGo_spec pool hw ut_configuration [] ex ha
  refine ⟨?_, hcnt (by decide), hnd⟩
  rw [hlen]
  decide

/-- A concrete pool with twelve distinct-fingerprint questions per topic. -/
def concretePool : Nat → List PoolQ :=
  fun t => (List.range 12).map fun i => ⟨t * 100 + i, t⟩

/-- Witness for `assemble_spec` on the concrete pool. -/
theorem assemble_spec_witness :
    ∃ ex, assemble concretePool = some ex
      ∧ ex.length = 45 ∧ (ex.map PoolQ.fp).Nodup := by
  have hs : (assemble concretePool).isSome = true := by decide
  have hw : ∀ t, ∀ q ∈ concretePool t, q.ut = t := by
    intro t q hq
    simp only [concretePool, List.mem_map, List.mem_range] at hq
    obtain ⟨i, _, rfl⟩ := hq
    rfl
  obtain ⟨h1, _, h3⟩ :=
    assemble_spec concretePool ((assemble concretePool).get hs) hw (Option.some_get hs).symm
  exact ⟨(assemble concretePool).get hs, (Option.some_get hs).symm, h1, h3⟩

/-! Content identity (C9).  The repository's canonicalization+hash code is
`calculateQuestionHash` in `script.js:1629-1674` (commented "mismo algoritmo
que el backend"): `normalizarTexto` lowercases, replaces every character
matching `[^\w\s]` with a space, collapses whitespace runs to single spaces
and trims; the normalized options are filtered of empty strings, sorted and
joined with a bar, appended after the normalized prompt and a bar, and the
result is hashed and truncated to 16 hex characters.  `sha256` uses the Web
Crypto API when the browser provides it and otherwise falls back to the
in-source 32-bit rolling hash; the digest below is that in-source fallback
(the invariance properties depend only on the digest being a function). -/

/-- One step of `texto.toLowerCase()` per character.  JavaScript lowercases
the full Unicode range; `Char.toLower` covers ASCII letters, which agrees
with JavaScript on this corpus because every non-ASCII letter is replaced by
a space in the next step either way. -/
def toLowerJS (l : List Char) : List Char := l.map Char.toLower

/-- The JavaScript regex class `\w` without the `u` flag:
`[A-Za-z0-9_]` — note that accented letters are not word characters. -/
def isWordChar (c : Char) : Bool := c.isAlphanum || c == '_'

/-- The JavaScript regex class `\s`: ASCII whitespace, NBSP, the Unicode
space separators, the line separators and ZWNBSP. -/
def isSpaceChar (c : Char) : Bool :=
  c == ' ' || c == '\t' || c == '\n' || c == '\r' || c == '\x0b' || c == '\x0c' ||
  c == ' ' || c == ' ' ||
  (decide (0x2000 ≤ c.toNat) && decide (c.toNat ≤ 0x200A)) ||
  c == ' ' || c == ' ' || c == ' ' || c == ' ' ||
  c == '　' || c == '﻿'

/-- The step `.replace(/[^\w\s]/g, ' ')`: every character that is neither a
word character nor whitespace is replaced by a space (not deleted). -/
def replacePunct (l : List Char) : List Char :=
  l.map fun c => if isWordChar c || isSpaceChar c then c else ' '

/-- Maximal whitespace-free words of a character list; the accumulator holds
the current word reversed. -/
def wordsAux : List Char → List Char → List (List Char)
  | [], acc => if acc = [] then [] else [acc.reverse]
  | c :: rest, acc =>
    if isSpaceChar c then
      if acc = [] then wordsAux rest [] else acc.reverse :: wordsAux rest []
    else wordsAux rest (c :: acc)

/-- Words joined with single spaces. -/
def joinWords : List (List Char) → List Char
  | [] => []
  | [w] => w
  | w :: w' :: ws => w ++ ' ' :: joinWords (w' :: ws)

/-- The body of `normalizarTexto` on character lists: lowercase, replace
punctuation by spaces, then `.replace(/\s+/g, ' ').trim()` — expressed as
splitting into words and re-joining with single spaces. -/
def normalizarTextoL (l : List Char) : List Char :=
  joinWords (wordsAux (replacePunct (toLowerJS l)) [])

/-- `normalizarTexto(texto)` of `calculateQuestionHash` on strings (an empty
input yields the empty string through the same pipeline). -/
def normalizarTexto (s : String) : String := ⟨normalizarTextoL s.data⟩

/-- The `.sort()` on normalized option texts: lexicographic order on
strings, matching the JavaScript default comparator on this corpus. -/
def sortOptions (opts : List String) : List String := List.insertionSort (· ≤ ·) opts

/-- The option pipeline of `calculateQuestionHash`:
`.map(normalizarTexto).filter(texto => texto).sort().join('|')` — options
normalizing to the empty string are dropped before sorting and joining. -/
def opcionesNorm (opciones : List String) : String :=
  String.intercalate "|" (sortOptions ((opciones.map normalizarTexto).filter fun t => t != ""))

/-- The hashed content: normalized prompt, a bar, and the joined options. -/
def contenido (enunciado : String) (opciones : List String) : String :=
  normalizarTexto enunciado ++ "|" ++ opcionesNorm opciones

/-- JavaScript `ToInt32`: reduce an integer into the signed 32-bit range. -/
def toInt32 (n : Int) : Int := (n + 2 ^ 31) % 2 ^ 32 - 2 ^ 31

/-- One iteration of the fallback hash loop:
`hash = ((hash << 5) - hash) + charCode; hash = hash & hash;` — the shift
coerces to int32, the subtraction and addition are exact, and `& hash`
coerces the result back to int32. -/
def jsHashStep (h : Int) (c : Char) : Int := toInt32 (toInt32 (h * 32) - h + c.toNat)

/-- The fallback hash loop of `sha256` over the string, starting from 0
(character codes are Unicode code points, which equal the JavaScript UTF-16
code units on this corpus of BMP text). -/
def jsHashLoop (s : String) : Int := s.data.foldl jsHashStep 0

/-- `.padStart(16, '0')`. -/
def padStart16 (s : String) : String :=
  if s.length < 16 then String.mk (List.replicate (16 - s.length) '0') ++ s else s

/-- The in-source fallback digest:
`Math.abs(hash).toString(16).padStart(16, '0')`. -/
def sha256Fallback (s : String) : String :=
  padStart16 ((Nat.toDigits 16 (jsHashLoop s).natAbs).asString)

/-- `calculateQuestionHash(pregunta)` for a prompt and its option texts:
hash the canonical content and truncate with `.substring(0, 16)`. -/
def calculateQuestionHash (enunciado : String) (opciones : List String) : String :=
  (sha256Fallback (contenido enunciado opciones)).take 16

/-- One superficial edit of a question text: an arbitrary case change, the
duplication or deduplication of a space, or the insertion or deletion of one
punctuation character adjacent to a space or at an end of the text — defined
syntactically, independently of the normalization pipeline.  Punctuation
interior to a word is deliberately absent: the code replaces it with a space,
which splits the word and changes the hash (see the counterexample). -/
inductive VariantStep : List Char → List Char → Prop
  | case_change {l₁ l₂ : List Char} : toLowerJS l₁ = toLowerJS l₂ → VariantStep l₁ l₂
  | space_dup (l₁ l₂ : List Char) :
      VariantStep (l₁ ++ ' ' :: l₂) (l₁ ++ ' ' :: ' ' :: l₂)
  | space_undup (l₁ l₂ : List Char) :
      VariantStep (l₁ ++ ' ' :: ' ' :: l₂) (l₁ ++ ' ' :: l₂)
  | punct_before_space (l₁ l₂ : List Char) {c : Char} :
      isWordChar c = false → isSpaceChar c = false →
      VariantStep (l₁ ++ ' ' :: l₂) (l₁ ++ c :: ' ' :: l₂)
  | punct_before_space_del (l₁ l₂ : List Char) {c : Char} :
      isWordChar c = false → isSpaceChar c = false →
      VariantStep (l₁ ++ c :: ' ' :: l₂) (l₁ ++ ' ' :: l₂)
  | punct_after_space (l₁ l₂ : List Char) {c : Char} :
      isWordChar c = false → isSpaceChar c = false →
      VariantStep (l₁ ++ ' ' :: l₂) (l₁ ++ ' ' :: c :: l₂)
  | punct_after_space_del (l₁ l₂ : List Char) {c : Char} :
      isWordChar c = false → isSpaceChar c = false →
      VariantStep (l₁ ++ ' ' :: c :: l₂) (l₁ ++ ' ' :: l₂)
  | punct_at_start (l : List Char) {c : Char} :
      isWordChar c = false → isSpaceChar c = false → VariantStep l (c :: l)
  | punct_at_start_del (l : List Char) {c : Char} :
      isWordChar c = false → isSpaceChar c = false → VariantStep (c :: l) l
  | punct_at_end (l : List Char) {c : Char} :
      isWordChar c = false → isSpaceChar c = false → VariantStep l (l ++ [c])
  | punct_at_end_del (l : List Char) {c : Char} :
      isWordChar c = false → isSpaceChar c = false → VariantStep (l ++ [c]) l

/-- Two strings related by a chain of superficial edits. -/
def Variant (s t : String) : Prop := Relation.ReflTransGen VariantStep s.data t.data

/-- Lowercasing fixes every non-word character (only `A`–`Z`, which are word
characters, are changed). -/
theorem toLower_not_word {c : Char} (h : isWordChar c = false) : c.toLower = c := by
  have halnum : c.isAlphanum = false := by
    simp only [isWordChar, Bool.or_eq_false_iff] at h
    exact h.1
  have hup : c.isUpper = false := by
    simp only [Char.isAlphanum, Char.isAlpha, Bool.or_eq_false_iff] at halnum
    exact halnum.1.1
  unfold Char.toLower
  rw [if_neg]
  intro hc
  obtain ⟨h1, h2⟩ := hc
  simp only [Char.isUpper, Bool.and_eq_false_iff] at hup
  rcases hup with hup | hup
  · simp only [decide_eq_false_iff_not] at hup
    exact hup h1
  · simp only [decide_eq_false_iff_not] at hup
    exact hup h2

/-- A leading space is dropped by word splitting. -/
theorem wordsAux_space_cons (l : List Char) : wordsAux (' ' :: l) [] = wordsAux l [] := by
  simp [wordsAux, show isSpaceChar ' ' = true from by decide]

/-- Word splitting ignores duplicated spaces. -/
theorem wordsAux_space_dup (A B : List Char) :
    ∀ acc, wordsAux (A ++ ' ' :: ' ' :: B) acc = wordsAux (A ++ ' ' :: B) acc := by
  induction A with
  | nil =>
    intro acc
    by_cases ha : acc = []
    · subst ha
      exact wordsAux_space_cons (' ' :: B)
    · simp [wordsAux, ha, wordsAux_space_cons, show isSpaceChar ' ' = true from by decide]
  | cons a A ih =>
    intro acc
    by_cases hsp : isSpaceChar a = true
    · by_cases ha : acc = [] <;> simp [wordsAux, hsp, ha, ih]
    · simp only [Bool.not_eq_true] at hsp
      simp only [List.cons_append, wordsAux, hsp]
      exact ih (a :: acc)

/-- A trailing space is dropped by word splitting. -/
theorem wordsAux_space_append (A : List Char) :
    ∀ acc, wordsAux (A ++ [' ']) acc = wordsAux A acc := by
  induction A with
  | nil =>
    intro acc
    by_cases ha : acc = [] <;>
      simp [wordsAux, ha, show isSpaceChar ' ' = true from by decide]
  | cons a A ih =>
    intro acc
    by_cases hsp : isSpaceChar a = true
    · by_cases ha : acc = [] <;> simp [wordsAux, hsp, ha, ih]
    · simp only [Bool.not_eq_true] at hsp
      simp only [List.cons_append, wordsAux, hsp]
      exact ih (a :: acc)

/-- The replacement step sends a punctuation character to a space. -/
theorem replace_of_punct {c : Char} (hw : isWordChar c = false) (hs : isSpaceChar c = false) :
    (if isWordChar c || isSpaceChar c then c else ' ') = ' ' := by
  simp [hw, hs]

/-- Case changes do not affect the normal form. -/
theorem normalizarTextoL_case {l₁ l₂ : List Char} (h : toLowerJS l₁ = toLowerJS l₂) :
    normalizarTextoL l₁ = normalizarTextoL l₂ := by
  unfold normalizarTextoL
  rw [h]

/-- Duplicating a space does not change the normal form. -/
theorem normalizarTextoL_space_dup (l₁ l₂ : List Char) :
    normalizarTextoL (l₁ ++ ' ' :: ' ' :: l₂) = normalizarTextoL (l₁ ++ ' ' :: l₂) := by
  unfold normalizarTextoL toLowerJS replacePunct
  simp only [List.map_append, List.map_cons]
  rw [show Char.toLower ' ' = ' ' from by decide]
  rw [show (if isWordChar ' ' || isSpaceChar ' ' then ' ' else ' ') = ' ' from by decide]
  exact congrArg joinWords (wordsAux_space_dup _ _ [])

/-- A punctuation character inserted before a space becomes a duplicated
space and vanishes in the normal form. -/
theorem normalizarTextoL_punct_before_space (l₁ l₂ : List Char) {c : Char}
    (hw : isWordChar c = false) (hs : isSpaceChar c = false) :
    normalizarTextoL (l₁ ++ c :: ' ' :: l₂) = normalizarTextoL (l₁ ++ ' ' :: l₂) := by
  unfold normalizarTextoL toLowerJS replacePunct
  simp only [List.map_append, List.map_cons]
  rw [toLower_not_word hw]
  rw [show Char.toLower ' ' = ' ' from by decide]
  rw [replace_of_punct hw hs]
  rw [show (if isWordChar ' ' || isSpaceChar ' ' then ' ' else ' ') = ' ' from by decide]
  exact congrArg joinWords (wordsAux_space_dup _ _ [])

/-- A punctuation character inserted after a space vanishes likewise. -/
theorem normalizarTextoL_punct_after_space (l₁ l₂ : List Char) {c : Char}
    (hw : isWordChar c = false) (hs : isSpaceChar c = false) :
    normalizarTextoL (l₁ ++ ' ' :: c :: l₂) = normalizarTextoL (l₁ ++ ' ' :: l₂) := by
  unfold normalizarTextoL toLowerJS replacePunct
  simp only [List.map_append, List.map_cons]
  rw [toLower_not_word hw]
  rw [show Char.toLower ' ' = ' ' from by decide]
  rw [replace_of_punct hw hs]
  rw [show (if isWordChar ' ' || isSpaceChar ' ' then ' ' else ' ') = ' ' from by decide]
  exact congrArg joinWords (wordsAux_space_dup _ _ [])

/-- A punctuation character at the start of the text is trimmed away. -/
theorem normalizarTextoL_punct_at_start (l : List Char) {c : Char}
    (hw : isWordChar c = false) (hs : isSpaceChar c = false) :
    normalizarTextoL (c :: l) = normalizarTextoL l := by
  unfold normalizarTextoL toLowerJS replacePunct
  simp only [List.map_cons]
  rw [toLower_not_word hw]
  rw [replace_of_punct hw hs]
  exact congrArg joinWords (wordsAux_space_cons _)

/-- A punctuation character at the end of the text is trimmed away. -/
theorem normalizarTextoL_punct_at_end (l : List Char) {c : Char}
    (hw : isWordChar c = false) (hs : isSpaceChar c = false) :
    normalizarTextoL (l ++ [c]) = normalizarTextoL l := by
  unfold normalizarTextoL toLowerJS replacePunct
  simp only [List.map_append, List.map_cons, List.map_nil]
  rw [toLower_not_word hw]
  rw [replace_of_punct hw hs]
  exact congrArg joinWords (wordsAux_space_append _ [])

/-- Each superficial edit preserves the normal form. -/
theorem normalizarTextoL_step {l₁ l₂ : List Char} (h : VariantStep l₁ l₂) :
    normalizarTextoL l₁ = normalizarTextoL l₂ := by
  cases h with
  | case_change hc => exact normalizarTextoL_case hc
  | space_dup a b => exact (normalizarTextoL_space_dup a b).symm
  | space_undup a b => exact normalizarTextoL_space_dup a b
  | punct_before_space a b hw hs => exact (normalizarTextoL_punct_before_space a b hw hs).symm
  | punct_before_space_del a b hw hs => exact normalizarTextoL_punct_before_space a b hw hs
  | punct_after_space a b hw hs => exact (normalizarTextoL_punct_after_space a b hw hs).symm
  | punct_after_space_del a b hw hs => exact normalizarTextoL_punct_after_space a b hw hs
  | punct_at_start =>
    rename_i hw hs
    exact (normalizarTextoL_punct_at_start _ hw hs).symm
  | punct_at_start_del =>
    rename_i hw hs
    exact normalizarTextoL_punct_at_start _ hw hs
  | punct_at_end =>
    rename_i hw hs
    exact (normalizarTextoL_punct_at_end _ hw hs).symm
  | punct_at_end_del =>
    rename_i hw hs
    exact normalizarTextoL_punct_at_end _ hw hs

/-- Chains of superficial edits preserve the normal form. -/
theorem normalizarTextoL_variant {l₁ l₂ : List Char}
    (h : Relation.ReflTransGen VariantStep l₁ l₂) :
    normalizarTextoL l₁ = normalizarTextoL l₂ := by
  induction h with
  | refl => rfl
  | tail _ hstep ih => exact ih.trans (normalizarTextoL_step hstep)

/-- Superficially equivalent strings normalize identically. -/
theorem variant_normalizarTexto {s t : String} (h : Variant s t) :
    normalizarTexto s = normalizarTexto t :=
  congrArg String.mk (normalizarTextoL_variant h)

/-- Pointwise superficially equivalent option lists normalize identically. -/
theorem forall₂_variant_map {o₁ o₂ : List String} (h : List.Forall₂ Variant o₁ o₂) :
    o₁.map normalizarTexto = o₂.map normalizarTexto := by
  induction h with
  | nil => rfl
  | cons hv _ ih => simp [variant_normalizarTexto hv, ih]

/-- Sorting is invariant under permutation of its input. -/
theorem sortOptions_perm_eq {l₁ l₂ : List String} (h : l₁.Perm l₂) :
    sortOptions l₁ = sortOptions l₂ := by
  apply List.eq_of_perm_of_sorted (r := (· ≤ ·))
  · exact (List.perm_insertionSort _ l₁).trans (h.trans (List.perm_insertionSort _ l₂).symm)
  · exact List.sorted_insertionSort _ l₁
  · exact List.sorted_insertionSort _ l₂

set_option maxRecDepth 10000 in
/-- C9 counterexample: the fingerprint is not invariant under arbitrary
punctuation variation.  An apostrophe is a punctuation character by the
model's own classes, and inserting one inside a word — `dont` versus
`don't` — changes the hashed content (`normalizarTexto` replaces the
apostrophe with a space, splitting the word into `don t`) and with it the
fingerprint, for identical options. -/
theorem punct_splits_words_counterexample :
    isWordChar '\'' = false ∧ isSpaceChar '\'' = false
    ∧ "don't".data = "don".data ++ '\'' :: "t".data
    ∧ normalizarTexto "dont" = "dont"
    ∧ normalizarTexto "don't" = "don t"
    ∧ calculateQuestionHash "dont" ["abc"] ≠ calculateQuestionHash "don't" ["abc"] := by
  decide

/-- C9 amended: `calculateQuestionHash` is unchanged by permuting the order
of the options, changing the case of the prompt or option texts, varying
whitespace spacing, and inserting or removing punctuation adjacent to
whitespace or at the ends of a text — because texts are normalized and the
normalized, non-empty option texts are sorted before hashing.  (It is not
invariant under punctuation interior to a word, which the code replaces with
a word-splitting space: see the counterexample.) -/
theorem calculateQuestionHash_invariant (p₁ p₂ : String) (o₁ o₂ o₃ : List String)
    (hp : Variant p₁ p₂) (hperm : o₁.Perm o₃) (hvar : List.Forall₂ Variant o₃ o₂) :
    calculateQuestionHash p₁ o₁ = calculateQuestionHash p₂ o₂ := by
  unfold calculateQuestionHash contenido opcionesNorm
  rw [variant_normalizarTexto hp]
  have h1 : ((o₁.map normalizarTexto).filter fun t => t != "").Perm
      ((o₂.map normalizarTexto).filter fun t => t != "") := by
    have h2 := hperm.map normalizarTexto
    rw [forall₂_variant_map hvar] at h2
    exact h2.filter _
  rw [sortOptions_perm_eq h1]

/-- Witness for `calculateQuestionHash_invariant`: a concrete prompt with
changed case, a doubled space and a trailing exclamation mark, against a
swapped and case-changed option list. -/
theorem calculateQuestionHash_invariant_witness :
    calculateQuestionHash "Luz Verde" ["Rojo", "Azul"]
      = calculateQuestionHash "luz  verde!" ["azul", "Rojo"] := by
  apply calculateQuestionHash_invariant
  · have s1 : VariantStep ("Luz Verde".data) ("luz verde".data) :=
      VariantStep.case_change (by decide)
    have s2 : VariantStep ("luz verde".data) ("luz  verde".data) := by
      rw [show "luz verde".data = "luz".data ++ ' ' :: "verde".data from by decide,
          show "luz  verde".data = "luz".data ++ ' ' :: ' ' :: "verde".data from by decide]
      exact VariantStep.space_dup _ _
    have s3 : VariantStep ("luz  verde".data) ("luz  verde!".data) := by
      have h4 := VariantStep.punct_at_end ("luz  verde".data) (c := '!')
        (by decide) (by decide)
      rw [show "luz  verde!".data = "luz  verde".data ++ ['!'] from by decide]
      exact h4
    exact Relation.ReflTransGen.head s1 (Relation.ReflTransGen.head s2
      (Relation.ReflTransGen.single s3))
  · exact (by decide : (["Rojo", "Azul"] : List String).Perm ["Azul", "Rojo"])
  · exact List.Forall₂.cons (Relation.ReflTransGen.single (VariantStep.case_change (by decide)))
      (List.Forall₂.cons Relation.ReflTransGen.refl List.Forall₂.nil)

end PER

